import Mathlib

/-!
Verification of the `ipcidrtree` module (file `src/ipcidrtree/__init__.py`).

The development shallowly embeds the value types (`IPNumber`, `Netmask`,
`Prefix`) and the CIDR tree (`PrefixNode`) of the source.  Machine integers
are `Nat` with explicit bounds where overflow matters; fallible Python code
returns `Except`; in-place mutation is modelled by returning updated values.
-/

namespace Ipcidrtree

/-- Kinds of exceptions the embedded code can signal.  `valueError`,
`typeError` and `attributeError` correspond to the Python exceptions of the
same names; `duplicatePrefixError` corresponds to the module's
`DuplicatePrefixError` class and carries the offending prefix value as an
(address, netmask) pair of integers.  `fuelExhausted` is an artifact of the
fuel-based embedding of unbounded loops and is proved unreachable wherever a
theorem below concludes with a non-`fuelExhausted` outcome. -/
inductive PyErr where
  | valueError
  | typeError
  | attributeError
  | duplicatePrefixError (addr netmask : Nat)
  | fuelExhausted
deriving DecidableEq, Repr

/-- `plen2int` (source line 82): netmask integer of a slash-notation length. -/
def plen2int (plen : Nat) : Nat := (2 ^ plen - 1) * 2 ^ (32 - plen)

/-- `_bits32(~i)` (source lines 91-93 applied to a Python `~`): for
`0 ≤ i < 2^32`, Python's `~i & 0xffffffff` equals `2^32 - 1 - i`. -/
def complement32 (i : Nat) : Nat := 4294967295 - i

/-- Structural integer base-2 logarithm: `log2go f n` halves `n` at most `f`
times, so for `n < 2^f` it is the floor of the base-2 logarithm of `n`. -/
def log2go : Nat → Nat → Nat
  | 0, _ => 0
  | f + 1, n => if 2 ≤ n then log2go f (n / 2) + 1 else 0

/-- `_log2` (source lines 87-89).  The source computes
`math.log(n)/math.log(2)` in IEEE-754 doubles and truncates to `int`; every
call site applies it to an exact power of two not exceeding `2^32`, where the
floating-point computation is exact, so it is modelled as the integer base-2
logarithm (64 halvings cover every argument that can arise from a 32-bit
mask). -/
def _log2 (n : Nat) : Nat := log2go 64 n

/-- `Netmask.prefix_len` (source lines 373-375): `32 - int(_log2(_bits32(~mask)+1))`. -/
def prefix_len (mask : Nat) : Nat := 32 - _log2 (complement32 mask + 1)

/-- `Netmask.netsize` (source lines 377-379). -/
def netsize (mask : Nat) : Nat := 2 ^ (32 - prefix_len mask)

/-- `valid_masks` (source line 135 and `Netmask._valid_masks`, line 347): the
33 legal netmask integers, as listed in the source. -/
def valid_masks : List Nat :=
  [4294967295, 4294967294, 4294967292, 4294967288, 4294967280, 4294967264,
   4294967232, 4294967168, 4294967040, 4294966784, 4294966272, 4294965248,
   4294963200, 4294959104, 4294950912, 4294934528, 4294901760, 4294836224,
   4294705152, 4294443008, 4293918720, 4292870144, 4290772992, 4286578688,
   4278190080, 4261412864, 4227858432, 4160749568, 4026531840, 3758096384,
   3221225472, 2147483648, 0]

/-- The `Prefix` class (source lines 404-425): the pair of an `Address` and a
`Netmask`, each of which wraps a 32-bit integer (`IPNumber._ip_int`).  The
field `netmask` stores the netmask as its integer value, exactly as
`int(self.netmask)` does in the source. -/
structure Prefix where
  addr : Nat
  netmask : Nat
deriving DecidableEq, Repr

/-- `Prefix.__contains__` for a `Prefix` argument (source lines 554-572): the
`Range` branch and the conversion of non-`Prefix` arguments are skipped
because every call in the embedded code passes a `Prefix`. -/
def Prefix.containsP (self other : Prefix) : Bool :=
  if prefix_len other.netmask ≤ prefix_len self.netmask then false
  else (self.netmask &&& other.addr) == self.addr

/-- `Prefix.__cmp__` (source lines 490-515): nesting-aware three-way
comparison.  `self in other or other in self` is
`other.containsP self || self.containsP other`. -/
def Prefix.cmp (self other : Prefix) : Int :=
  if other.containsP self || self.containsP other then
    if prefix_len self.netmask = prefix_len other.netmask then
      if self.addr < other.addr then -1
      else if other.addr < self.addr then 1
      else 0
    else if prefix_len other.netmask < prefix_len self.netmask then -1
    else 1
  else
    if self.addr < other.addr then -1
    else if other.addr < self.addr then 1
    else 0

/-- `Prefix.__lt__` (source lines 517-532). -/
def Prefix.lt (self other : Prefix) : Bool :=
  if other.containsP self || self.containsP other then
    if prefix_len self.netmask = prefix_len other.netmask then
      self.addr < other.addr
    else if prefix_len other.netmask < prefix_len self.netmask then true
    else false
  else
    self.addr < other.addr

/-- `Prefix.__add__` with a non-negative integer (source lines 654-671,
together with `IPNumber.__add__`, lines 300-314, and the host-bits check of
the `Prefix` constructor, line 420): shift the block by `i * netsize`,
failing with `ValueError` if the shifted address leaves `[0, 2^32-1]` or has
set host bits. -/
def Prefix.addInt (self : Prefix) (i : Nat) : Except PyErr Prefix :=
  let shifted_i := i * netsize self.netmask
  if 2 ^ 32 - 1 < self.addr + shifted_i then .error .valueError
  else if (self.addr + shifted_i) &&& complement32 self.netmask != 0 then .error .valueError
  else .ok ⟨self.addr + shifted_i, self.netmask⟩

/-- `Prefix.renumber` (source lines 462-470): rewrite the bits of `self`
covered by `newp`'s netmask with `newp`'s network bits, keeping
`self`'s own netmask; fails when `newp`'s mask is strictly longer than
`self`'s. -/
def Prefix.renumberP (self newp : Prefix) : Except PyErr Prefix :=
  if prefix_len self.netmask < prefix_len newp.netmask then .error .valueError
  else
    let keepmask := complement32 newp.netmask
    let keepbits := self.addr &&& keepmask
    if 2 ^ 32 - 1 < newp.addr ||| keepbits then .error .valueError
    else .ok ⟨newp.addr ||| keepbits, self.netmask⟩

/-- The loop of `Prefix.subnet` (source lines 692-695):
`while cur in self or cur==self: yield cur; cur+=1`, run on fuel.  The result
is `some (yielded, raised)` where `yielded` is the list of yielded prefixes
and `raised` records whether the final `cur+=1` raised `ValueError`
(terminating the generator with an exception instead of normal exhaustion);
`none` means the fuel ran out, which the theorems below prove unreachable for
the fuel used by `Prefix.subnet`. -/
def subnetGo : Nat → Prefix → Prefix → Option (List Prefix × Bool)
  | 0, _, _ => none
  | fuel + 1, self, cur =>
    if self.containsP cur || cur == self then
      match cur.addInt 1 with
      | .ok cur' =>
        match subnetGo fuel self cur' with
        | some (l, raised) => some (cur :: l, raised)
        | none => none
      | .error _ => some ([cur], true)
    else some ([], false)

/-- `Prefix.subnet` (source lines 682-695).  `subnet_mask` is the netmask as
an integer (the source's `Netmask(subnet_mask)` value).  The initial
`cur = Prefix(self.addr, subnet_mask)` applies the constructor's host-bits
check (line 420).  The fuel `2^32 + 1` exceeds the largest possible number of
loop iterations. -/
def Prefix.subnet (self : Prefix) (subnet_mask : Nat) : Except PyErr (List Prefix × Bool) :=
  if prefix_len subnet_mask < prefix_len self.netmask then .error .valueError
  else if self.addr &&& complement32 subnet_mask != 0 then .error .valueError
  else
    match subnetGo 4294967297 self ⟨self.addr, subnet_mask⟩ with
    | some r => .ok r
    | none => .error .fuelExhausted

/-- The `PrefixNode` class (source lines 704-733): one `Prefix` plus an
ordered list of child nodes.  The source's auxiliary indexes
`_children_hash` (children keyed by their exact prefix) and
`_children_pospars` (the children whose mask length is `< 32`) are derived
views of `children`, kept in sync by `_add_child`/`_rm_child` (lines
770-780); the embedding computes them from `children` where they are read.
The field holding the node's prefix is called `pfx` here (the source calls
it `prefix`, which is not usable as a Lean field name). -/
inductive PrefixNode where
  | mk (pfx : Prefix) (children : List PrefixNode)
deriving Repr

/-- The node's own prefix (`self.prefix` in the source). -/
def PrefixNode.pfx : PrefixNode → Prefix
  | ⟨p, _⟩ => p

/-- The node's child list (`self.children` in the source). -/
def PrefixNode.children : PrefixNode → List PrefixNode
  | ⟨_, cs⟩ => cs

mutual
/-- All prefixes of the nodes of a subtree, in pre-order (auxiliary for
stating occurrence and the tree invariants). -/
def nodePrefixes : PrefixNode → List Prefix
  | ⟨p, cs⟩ => p :: nodePrefixesL cs
def nodePrefixesL : List PrefixNode → List Prefix
  | [] => []
  | c :: rest => nodePrefixes c ++ nodePrefixesL rest
end

/-- `PrefixNode.parenting` (source lines 833-838): is some direct child's
prefix equal to the given prefix?  The source asks `_children_hash`, whose
key set is the set of the children's prefixes. -/
def parenting (children : List PrefixNode) (p : Prefix) : Bool :=
  children.any fun c => c.pfx == p

/-- Outcome of `PrefixNode.add` (source lines 783-830).  `rejected` is
`return False`, whose two sites (lines 791 and 798) run before any mutation,
so it carries no state; `accepted` is `return True` and carries the updated
receiver (the argument node now lives inside it); `dup` is
`raise DuplicatePrefixError` and carries the offending prefix together with
the receiver's and the argument's state at raise time. -/
inductive AddOut where
  | rejected
  | accepted (self : PrefixNode)
  | dup (p : Prefix) (self : PrefixNode) (nc : PrefixNode)

/-- Outcome of the first loop of `add` (source lines 808-810), which offers
the new node to each child of mask length `< 32` in order.  `rej` means every
tried child returned `False` (which, by the structure of `add`, mutates
nothing); `acc` carries the updated child list; `dup` propagates a raise
with the child list and new-node state at raise time. -/
inductive PosparsOut where
  | rej
  | acc (children : List PrefixNode)
  | dup (p : Prefix) (children : List PrefixNode) (nc : PrefixNode)

/-- Outcome of the second loop of `add` (source lines 818-825), which lets
the new node adopt the first current child it contains.  `noAdopt` means the
loop fell through (no mutation); `adopted` carries the children with the
adopted child removed, plus the updated new node; `dup` propagates a raise. -/
inductive InterposeOut where
  | noAdopt
  | adopted (children : List PrefixNode) (nc : PrefixNode)
  | dup (p : Prefix) (nc : PrefixNode) (children : List PrefixNode)

/-- The `for node in self._children_pospars: if node.add(new_child): return
True` loop (source lines 808-810), parameterised by the recursive call
`addf` so the loop itself is structural.  `_children_pospars` is the
sublist of children with mask length `< 32`, in list order. -/
def posparsGo (addf : PrefixNode → PrefixNode → Option AddOut) :
    List PrefixNode → PrefixNode → Option PosparsOut
  | [], _ => some .rej
  | c :: rest, nc =>
    if prefix_len c.pfx.netmask < 32 then
      match addf c nc with
      | none => none
      | some .rejected =>
        match posparsGo addf rest nc with
        | none => none
        | some .rej => some .rej
        | some (.acc rest') => some (.acc (c :: rest'))
        | some (.dup p rest' nc') => some (.dup p (c :: rest') nc')
      | some (.accepted c') => some (.acc (c' :: rest))
      | some (.dup p c' nc') => some (.dup p (c' :: rest) nc')
    else
      match posparsGo addf rest nc with
      | none => none
      | some .rej => some .rej
      | some (.acc rest') => some (.acc (c :: rest'))
      | some (.dup p rest' nc') => some (.dup p (c :: rest') nc')

/-- The `for cur_child in self.children: if new_child.add(cur_child): ...`
loop (source lines 819-825), parameterised by the recursive call `addf`.
On adoption the source appends `new_child` to `self.children` and then
removes `cur_child`, so the caller's resulting child list is the returned
`children` with the updated new node appended. -/
def interposeGo (addf : PrefixNode → PrefixNode → Option AddOut) :
    PrefixNode → List PrefixNode → Option InterposeOut
  | _, [] => some .noAdopt
  | nc, c :: rest =>
    match addf nc c with
    | none => none
    | some .rejected =>
      match interposeGo addf nc rest with
      | none => none
      | some .noAdopt => some .noAdopt
      | some (.adopted rest' nc') => some (.adopted (c :: rest') nc')
      | some (.dup p nc' rest') => some (.dup p nc' (c :: rest'))
    | some (.accepted nc') => some (.adopted rest nc')
    | some (.dup p nc' c') => some (.dup p nc' (c' :: rest))

/-- `PrefixNode.add` (source lines 783-830) on fuel (the recursion of `add`
moves the new node between trees, so it is not structural; every call chain
shortens the combined size, and `PrefixNode.add` below supplies sufficient
fuel).  The argument is always already a `PrefixNode` in the embedded code,
so the `issubclass` conversion (lines 793-794) is skipped. -/
def addF : Nat → PrefixNode → PrefixNode → Option AddOut
  | 0, _, _ => none
  | fuel + 1, self, nc =>
    if prefix_len self.pfx.netmask == 32 then some .rejected
    else if !(self.pfx.containsP nc.pfx) then some .rejected
    else
      match posparsGo (addF fuel) self.children nc with
      | none => none
      | some (.dup p cs' nc') => some (.dup p ⟨self.pfx, cs'⟩ nc')
      | some (.acc cs') => some (.accepted ⟨self.pfx, cs'⟩)
      | some .rej =>
        if parenting self.children nc.pfx then
          some (.dup nc.pfx ⟨self.pfx, self.children⟩ nc)
        else if prefix_len nc.pfx.netmask < 32 then
          match interposeGo (addF fuel) nc self.children with
          | none => none
          | some (.dup p nc' cs') => some (.dup p ⟨self.pfx, cs'⟩ nc')
          | some (.adopted cs' nc') => some (.accepted ⟨self.pfx, cs' ++ [nc']⟩)
          | some .noAdopt => some (.accepted ⟨self.pfx, self.children ++ [nc]⟩)
        else some (.accepted ⟨self.pfx, self.children ++ [nc]⟩)

mutual
/-- Number of nodes of a subtree (auxiliary, used to compute sufficient fuel
for `PrefixNode.add`). -/
def nodeCount : PrefixNode → Nat
  | ⟨_, cs⟩ => 1 + nodeCountL cs
def nodeCountL : List PrefixNode → Nat
  | [] => 0
  | c :: rest => nodeCount c + nodeCountL rest
end

/-- `PrefixNode.add` with fuel sufficient for the whole recursion (each
nested `addF` call strictly decreases the combined node count of the two
trees, so this fuel is never exhausted; the theorems below prove this where
they need it). -/
def PrefixNode.add (self nc : PrefixNode) : Option AddOut :=
  addF (nodeCount self + nodeCount nc + 1) self nc

mutual
/-- `PrefixNode.find` (source lines 895-914) under the Python 2 reading of
the `types.InstanceType` guard (line 898), in which a `Prefix`-valued key
passes the guard unconverted; under Python 3 that guard itself raises, see
`find_py3` below. -/
def PrefixNode.find : PrefixNode → Prefix → Option PrefixNode
  | ⟨p, cs⟩, key =>
    if p == key then some ⟨p, cs⟩
    else if !(p.containsP key) then none
    else findL cs key
def findL : List PrefixNode → Prefix → Option PrefixNode
  | [], _ => none
  | c :: rest, key =>
    match PrefixNode.find c key with
    | some r => some r
    | none => findL rest key
end

mutual
/-- `PrefixNode.prune` (source lines 845-872) under the Python 2 reading of
the `types.InstanceType` guard (line 849).  Returns the removed node (if
found) together with the updated tree; pruning the tree's own root raises
`ValueError`. -/
def PrefixNode.prune : PrefixNode → Prefix → Except PyErr (Option PrefixNode × PrefixNode)
  | ⟨p, cs⟩, key =>
    if p == key then .error .valueError
    else if !(p.containsP key) then .ok (none, ⟨p, cs⟩)
    else
      match pruneL cs key with
      | .error e => .error e
      | .ok (res, cs') => .ok (res, ⟨p, cs'⟩)
def pruneL : List PrefixNode → Prefix → Except PyErr (Option PrefixNode × List PrefixNode)
  | [], _ => .ok (none, [])
  | c :: rest, key =>
    if c.pfx == key then .ok (some c, rest)
    else
      match PrefixNode.prune c key with
      | .error e => .error e
      | .ok (some rv, c') => .ok (some rv, c' :: rest)
      | .ok (none, c') =>
        match pruneL rest key with
        | .error e => .error e
        | .ok (res, rest') => .ok (res, c' :: rest')
end

/-- `PrefixNode._rrenumber` (source lines 735-738): rewrite this node's own
prefix and then run `for c in self.children: c.rrenumber(newp)`.
`rrenumber` (no leading underscore) is not an attribute of `PrefixNode` —
the method is named `_rrenumber` — so with one or more children the loop's
first iteration raises `AttributeError`; only the childless case completes. -/
def PrefixNode.rrenumber_ (t : PrefixNode) (newp : Prefix) : Except PyErr PrefixNode :=
  match t with
  | ⟨p, cs⟩ =>
    match p.renumberP newp with
    | .error e => .error e
    | .ok p' =>
      match cs with
      | [] => .ok ⟨p', []⟩
      | _ :: _ => .error .attributeError

/-- The attribute names of Python 3's `types` module, modelled from the
Python 3 standard library documentation (`InstanceType` existed only in
Python 2 and was removed in Python 3.0). -/
def typesModuleAttrs : List String :=
  ["AsyncGeneratorType", "BuiltinFunctionType", "BuiltinMethodType",
   "CellType", "ClassMethodDescriptorType", "CodeType", "CoroutineType",
   "DynamicClassAttribute", "EllipsisType", "FrameType", "FunctionType",
   "GeneratorType", "GenericAlias", "GetSetDescriptorType", "LambdaType",
   "MappingProxyType", "MemberDescriptorType", "MethodDescriptorType",
   "MethodType", "MethodWrapperType", "ModuleType", "NoneType",
   "NotImplementedType", "SimpleNamespace", "TracebackType", "UnionType",
   "WrapperDescriptorType", "coroutine", "new_class", "prepare_class",
   "resolve_bases"]

/-- Evaluating `types.<name>` under Python 3: succeeds when the module has
the attribute, raises `AttributeError` otherwise. -/
def getattrTypes (name : String) : Except PyErr String :=
  if typesModuleAttrs.contains name then .ok name else .error .attributeError

/-- The possible arguments of `PrefixNode.__init__` (source line 711-722):
a `Prefix`, an `Address` (a 32-bit integer value), a byte string, or
anything else. -/
inductive PyVal where
  | prefixV (p : Prefix)
  | addressV (a : Nat)
  | bytesV (s : String)
  | otherV

/-- `PrefixNode.__init__` under Python 3 (source lines 711-733): the first
branch condition evaluates `types.InstanceType` (line 715) before any
dispatch, so the attribute lookup raises.  The match below it is the
Python 2 continuation, unreachable under Python 3; its byte-string branch
would parse the string through the external parsing collaborator (outside
the embedded core, spec section 1), abstracted here as a successful parse of
an unconstrained prefix value. -/
def PrefixNode_init (v : PyVal) : Except PyErr PrefixNode :=
  match getattrTypes "InstanceType" with
  | .error e => .error e
  | .ok _ =>
    match v with
    | .prefixV p => .ok ⟨p, []⟩
    | .addressV a => .ok ⟨⟨a, 4294967295⟩, []⟩
    | .bytesV _ => .ok ⟨⟨0, 4294967295⟩, []⟩
    | .otherV => .error .typeError

/-- `PrefixNode.find` under Python 3 (source line 898): the guard
`type(key)==types.InstanceType and issubclass(key.__class__,Prefix)`
evaluates `types.InstanceType` on every call, so the lookup raises before
the search (whose Python 2 behaviour is `PrefixNode.find` above) starts. -/
def find_py3 (t : PrefixNode) (key : Prefix) : Except PyErr (Option PrefixNode) :=
  match getattrTypes "InstanceType" with
  | .error e => .error e
  | .ok _ => .ok (t.find key)

/-- `PrefixNode.prune` under Python 3 (source line 849): same guard, same
unconditional `AttributeError`. -/
def prune_py3 (t : PrefixNode) (key : Prefix) :
    Except PyErr (Option PrefixNode × PrefixNode) :=
  match getattrTypes "InstanceType" with
  | .error e => .error e
  | .ok _ => t.prune key

/-- `PrefixNode.renumber` (source lines 740-762), composed from the faithful
entry points `find_py3` and `prune_py3`.  After the two containment checks
(lines 745-748, which touch only `Prefix.__contains__` and raise nothing),
line 750 calls `self.find`, whose `types.InstanceType` guard (line 898)
raises `AttributeError` under Python 3 before anything is pruned; every such
call therefore fails with the tree untouched, and the remainder (prune,
rewrite, reinsert, duplicate handling with rollback) is the Python 2
continuation, embedded faithfully though unreachable under Python 3.
Errors carry the tree as it stands when the exception escapes. -/
def PrefixNode.renumber (self : PrefixNode) (oldp newp : Prefix) :
    Except (PyErr × PrefixNode) PrefixNode :=
  if !(self.pfx.containsP oldp) then .error (.valueError, self)
  else if !(self.pfx.containsP newp) then .error (.valueError, self)
  else
    match find_py3 self newp with
    | .error e => .error (e, self)
    | .ok found =>
      if found.isSome then .error (.valueError, self)
      else
        match prune_py3 self oldp with
        | .error e => .error (e, self)
        | .ok (none, self') => .error (.valueError, self')
        | .ok (some branch, self') =>
          match branch.rrenumber_ newp with
          | .error e => .error (e, self')
          | .ok branch' =>
            match self'.add branch' with
            | none => .error (.fuelExhausted, self')
            | some .rejected => .ok self'
            | some (.accepted self'') => .ok self''
            | some (.dup p self'' nc') =>
              match nc'.rrenumber_ oldp with
              | .error e => .error (e, self'')
              | .ok branch'' =>
                match self''.add branch'' with
                | none => .error (.fuelExhausted, self'')
                | some .rejected =>
                  .error (.duplicatePrefixError p.addr p.netmask, self'')
                | some (.accepted s3) =>
                  .error (.duplicatePrefixError p.addr p.netmask, s3)
                | some (.dup p2 s3 _) =>
                  .error (.duplicatePrefixError p2.addr p2.netmask, s3)

/-- Do two prefixes refrain from overlapping as siblings: neither contains
the other and they are not equal (spec section 3 invariants). -/
def pairOK (c d : PrefixNode) : Bool :=
  !(c.pfx.containsP d.pfx) && !(d.pfx.containsP c.pfx) && !(c.pfx == d.pfx)

/-- Pairwise sibling disjointness of a child list. -/
def sibOK : List PrefixNode → Bool
  | [] => true
  | c :: rest => rest.all (pairOK c) && sibOK rest

/-- Pairwise distinctness of a list of prefixes (no two nodes anywhere in
the tree share an exact prefix). -/
def distinctB : List Prefix → Bool
  | [] => true
  | p :: rest => rest.all (fun q => !(p == q)) && distinctB rest

mutual
/-- The documented tree invariant (spec section 3), as a decidable check:
every node's netmask is one of the 33 legal values, every strict descendant
of a node is strictly contained in that node's prefix (applied recursively
this gives containment in each ancestor), siblings are pairwise disjoint,
and no two nodes of the whole subtree share an exact prefix. -/
def invB : PrefixNode → Bool
  | ⟨p, cs⟩ =>
    valid_masks.contains p.netmask &&
    (nodePrefixesL cs).all (fun q => p.containsP q) &&
    sibOK cs &&
    distinctB (p :: nodePrefixesL cs) &&
    invL cs
def invL : List PrefixNode → Bool
  | [] => true
  | c :: rest => invB c && invL rest
end

/-! Concrete prefixes used by the example trees. -/

/-- 0.0.0.0/0. -/
def pAll : Prefix := ⟨0, plen2int 0⟩
/-- 10.0.0.0/8. -/
def p10_8 : Prefix := ⟨167772160, plen2int 8⟩
/-- 10.0.0.0/16. -/
def p10_0_16 : Prefix := ⟨167772160, plen2int 16⟩
/-- 10.0.0.0/24. -/
def p10_0_0_24 : Prefix := ⟨167772160, plen2int 24⟩
/-- 10.0.1.0/24. -/
def p10_0_1_24 : Prefix := ⟨167772416, plen2int 24⟩
/-- 10.0.0.5/32. -/
def p10_0_0_5_32 : Prefix := ⟨167772165, plen2int 32⟩
/-- 10.1.0.0/24. -/
def p10_1_0_24 : Prefix := ⟨167837696, plen2int 24⟩
/-- 10.1.0.0/16. -/
def p10_1_16 : Prefix := ⟨167837696, plen2int 16⟩
/-- 192.168.0.0/16. -/
def p192_16 : Prefix := ⟨3232235520, plen2int 16⟩
/-- 192.168.0.0/24. -/
def p192_0_24 : Prefix := ⟨3232235520, plen2int 24⟩
/-- 192.168.1.0/24. -/
def p192_1_24 : Prefix := ⟨3232235776, plen2int 24⟩

/-- C1: REFUTED by the code (code bug).  On the spec's rollback scenario — a
tree rooted at 0.0.0.0/0 containing 10.0.0.0/24 with child 10.0.0.5/32,
plus 10.1.0.0/24 so that the rewritten subtree would collide on reinsertion —
renumbering 10.0.0.0/24 to 10.1.0.0/16 never raises DuplicatePrefixError:
the call to `find` at source line 750 evaluates `types.InstanceType` and
dies with AttributeError before the subtree is even pruned, so the tree is
left untouched only because the operation never starts, not because of the
promised rollback.  The rollback machinery itself is also broken:
`_rrenumber` invokes the nonexistent method `rrenumber` on the subtree's
children (line 738), so the rewrite-and-restore step the claim describes
would crash with AttributeError for any subtree that has a child even under
the Python 2 reading of the guards. -/
theorem renumber_with_children_raises_attribute_error :
    PrefixNode.renumber ⟨pAll, [⟨p10_0_0_24, [⟨p10_0_0_5_32, []⟩]⟩, ⟨p10_1_0_24, []⟩]⟩
        p10_0_0_24 p10_1_16 =
      .error (.attributeError,
        ⟨pAll, [⟨p10_0_0_24, [⟨p10_0_0_5_32, []⟩]⟩, ⟨p10_1_0_24, []⟩]⟩) ∧
    PrefixNode.rrenumber_ ⟨p10_0_0_24, [⟨p10_0_0_5_32, []⟩]⟩ p10_1_16 =
      .error .attributeError :=
  ⟨rfl, rfl⟩

/-- C2: CONFIRMED.  For every argument value the `PrefixNode` constructor
raises instead of returning a node, and `find` and `prune` raise on every
call whatever the tree and key: each first evaluates `types.InstanceType`,
an attribute absent from Python 3's `types` module, so the lookup fails
before any dispatch happens. -/
theorem instancetype_lookup_always_raises :
    (∀ v, PrefixNode_init v = .error .attributeError) ∧
    (∀ t k, find_py3 t k = .error .attributeError) ∧
    (∀ t k, prune_py3 t k = .error .attributeError) :=
  ⟨fun _ => rfl, fun _ _ => rfl, fun _ _ => rfl⟩

/-- C3: REFUTED by the code (code bug).  Inserting 10.0.0.0/16 into a root
0.0.0.0/0 whose direct children are 10.0.0.0/24 and 10.0.1.0/24 reaches the
interposition step with k = 2 subsumed children, but only the first
(10.0.0.0/24) becomes a child of the new node: the loop returns as soon as
one child is adopted, so 10.0.1.0/24 remains a direct child of the root even
though the new node contains it. -/
theorem interpose_moves_only_first_child :
    PrefixNode.add ⟨pAll, [⟨p10_0_0_24, []⟩, ⟨p10_0_1_24, []⟩]⟩ ⟨p10_0_16, []⟩ =
      some (.accepted ⟨pAll, [⟨p10_0_1_24, []⟩, ⟨p10_0_16, [⟨p10_0_0_24, []⟩]⟩]⟩) ∧
    p10_0_16.containsP p10_0_1_24 = true :=
  ⟨rfl, by decide⟩

/-- C4: REFUTED by the code (code bug).  Starting from a tree satisfying the
documented invariant (root 0.0.0.0/0 with the two disjoint children
192.168.0.0/24 and 192.168.1.0/24), inserting
192.168.0.0/16 produces a tree in which 192.168.1.0/24 and its sibling
192.168.0.0/16 overlap — the insertion's early return after the first
adopted child breaks the sibling-disjointness part of the invariant. -/
theorem insert_breaks_sibling_invariant :
    invB ⟨pAll, [⟨p192_0_24, []⟩, ⟨p192_1_24, []⟩]⟩ = true ∧
    PrefixNode.add ⟨pAll, [⟨p192_0_24, []⟩, ⟨p192_1_24, []⟩]⟩ ⟨p192_16, []⟩ =
      some (.accepted ⟨pAll, [⟨p192_1_24, []⟩, ⟨p192_16, [⟨p192_0_24, []⟩]⟩]⟩) ∧
    invB ⟨pAll, [⟨p192_1_24, []⟩, ⟨p192_16, [⟨p192_0_24, []⟩]⟩]⟩ = false :=
  ⟨by decide, rfl, by decide⟩

/-- C5 counterexample: inserting a prefix equal to the root's own prefix is
silently rejected (`add` returns False) rather than raising
DuplicatePrefixError, although a node of the tree (the root) carries exactly
that prefix. -/
theorem insert_root_duplicate_rejected :
    pAll ∈ nodePrefixes (⟨pAll, []⟩ : PrefixNode) ∧
    PrefixNode.add ⟨pAll, []⟩ ⟨pAll, []⟩ = some .rejected :=
  ⟨by decide, rfl⟩

/-- C9 counterexample: for A = 10.0.0.0/24, B = 10.0.0.0/8 the relational
less-than returns true although A's address integer is not less than B's —
so `__lt__` is not derived from address comparison alone. -/
theorem lt_not_address_only :
    Prefix.lt p10_0_0_24 p10_8 = true ∧ ¬(p10_0_0_24.addr < p10_8.addr) :=
  ⟨by decide, by decide⟩

/-! Arithmetic facts about netmask integers. -/

/-- Every legal netmask integer round-trips through `prefix_len` and
`plen2int`, and its prefix length is at most 32. -/
theorem valid_mask_facts : ∀ m ∈ valid_masks, plen2int (prefix_len m) = m ∧ prefix_len m ≤ 32 := by
  decide

/-- `prefix_len` inverts `plen2int` on lengths up to 32. -/
theorem prefix_len_plen2int : ∀ p < 33, prefix_len (plen2int p) = p := by decide

/-- Every mask built from a length up to 32 is legal. -/
theorem plen2int_mem : ∀ p < 33, plen2int p ∈ valid_masks := by decide

/-- Of two nested masks, intersection keeps the shorter one. -/
theorem plen2int_land_le :
    ∀ p < 33, ∀ q < 33, p ≤ q → plen2int p &&& plen2int q = plen2int p := by decide

/-- The (32-bit) complement of a mask of length `p ≤ 32` is the low-bits
mask `2^(32-p) - 1`. -/
theorem complement32_plen2int : ∀ p < 33, complement32 (plen2int p) = 2 ^ (32 - p) - 1 := by
  decide

/-- Masking a 32-bit value with a length-`p` netmask zeroes its low
`32 - p` bits: the value is rounded down to a multiple of `2^(32-p)`. -/
theorem land_plen2int (x p : Nat) (hx : x < 2 ^ 32) (hp : p ≤ 32) :
    plen2int p &&& x = x / 2 ^ (32 - p) * 2 ^ (32 - p) := by
  apply Nat.eq_of_testBit_eq
  intro i
  have hmul : plen2int p = 2 ^ (32 - p) * (2 ^ p - 1) := by
    unfold plen2int; ring
  have hdiv : x / 2 ^ (32 - p) * 2 ^ (32 - p) = 2 ^ (32 - p) * (x >>> (32 - p)) := by
    rw [Nat.shiftRight_eq_div_pow]; ring
  rw [hmul, hdiv, Nat.testBit_and, Nat.testBit_mul_pow_two, Nat.testBit_mul_pow_two]
  by_cases hki : 32 - p ≤ i
  · have hplus : 32 - p + (i - (32 - p)) = i := by omega
    by_cases hi32 : i < 32
    · have hlt : i - (32 - p) < p := by omega
      simp [hki, hplus, hlt, Nat.testBit_shiftRight, Nat.testBit_two_pow_sub_one, ge_iff_le]
    · have hxi : x.testBit i = false := by
        apply Nat.testBit_lt_two_pow
        exact Nat.lt_of_lt_of_le hx (Nat.pow_le_pow_right (by norm_num) (by omega))
      simp [hki, hplus, hxi, Nat.testBit_shiftRight, ge_iff_le]
  · simp [hki, ge_iff_le]

/-- C8: CONFIRMED.  For every one of the 33 legal netmask integers `m`,
`plen2int (prefix_len m) = m`: `prefix_len` returns the exact count of
leading one-bits for every legal mask, including 0 and 4294967295.  (The
source computes the inner logarithm with floating-point `math.log`, which is
exact on the powers of two arising here; `_log2` models that computation.) -/
theorem netmask_roundtrip : ∀ m ∈ valid_masks, plen2int (prefix_len m) = m := by decide

/-- Witness for C8 at the two extreme legal masks. -/
theorem netmask_roundtrip_witness :
    (0 ∈ valid_masks ∧ plen2int (prefix_len 0) = 0) ∧
    (4294967295 ∈ valid_masks ∧ plen2int (prefix_len 4294967295) = 4294967295) :=
  ⟨⟨by decide, netmask_roundtrip 0 (by decide)⟩,
   ⟨by decide, netmask_roundtrip 4294967295 (by decide)⟩⟩

/-- Characterisation of the containment test of `Prefix.__contains__`. -/
theorem containsP_iff (X Y : Prefix) : X.containsP Y = true ↔
    prefix_len X.netmask < prefix_len Y.netmask ∧ X.netmask &&& Y.addr = X.addr := by
  unfold Prefix.containsP
  by_cases h : prefix_len Y.netmask ≤ prefix_len X.netmask
  · have h2 : ¬ (prefix_len X.netmask < prefix_len Y.netmask) := by omega
    simp [h, h2]
  · have h2 : prefix_len X.netmask < prefix_len Y.netmask := by omega
    simp [h, h2]

/-- No prefix contains itself. -/
theorem containsP_irrefl (X : Prefix) : X.containsP X = false := by
  unfold Prefix.containsP
  simp

/-- Two prefixes with legal netmasks that both contain a common prefix are
nested or equal. -/
theorem containers_nested (X Y q : Prefix)
    (hX : X.netmask ∈ valid_masks) (hY : Y.netmask ∈ valid_masks)
    (h1 : X.containsP q = true) (h2 : Y.containsP q = true) :
    X.containsP Y = true ∨ Y.containsP X = true ∨ X = Y := by
  obtain ⟨hlt1, heq1⟩ := (containsP_iff X q).mp h1
  obtain ⟨hlt2, heq2⟩ := (containsP_iff Y q).mp h2
  obtain ⟨hXr, hXle⟩ := valid_mask_facts X.netmask hX
  obtain ⟨hYr, hYle⟩ := valid_mask_facts Y.netmask hY
  have key : ∀ U V : Prefix, U.netmask = plen2int (prefix_len U.netmask) →
      V.netmask = plen2int (prefix_len V.netmask) →
      prefix_len U.netmask ≤ 32 → prefix_len V.netmask ≤ 32 →
      prefix_len U.netmask ≤ prefix_len V.netmask →
      U.netmask &&& q.addr = U.addr → V.netmask &&& q.addr = V.addr →
      U.netmask &&& V.addr = U.addr := by
    intro U V hUr hVr hUle hVle hle hU hV
    have hmm : U.netmask &&& V.netmask = U.netmask := by
      calc U.netmask &&& V.netmask
          = plen2int (prefix_len U.netmask) &&& plen2int (prefix_len V.netmask) := by
            rw [← hUr, ← hVr]
        _ = plen2int (prefix_len U.netmask) :=
            plen2int_land_le (prefix_len U.netmask) (by omega)
              (prefix_len V.netmask) (by omega) hle
        _ = U.netmask := by rw [← hUr]
    calc U.netmask &&& V.addr
        = U.netmask &&& (V.netmask &&& q.addr) := by rw [hV]
      _ = (U.netmask &&& V.netmask) &&& q.addr := (Nat.land_assoc _ _ _).symm
      _ = U.netmask &&& q.addr := by rw [hmm]
      _ = U.addr := hU
  rcases Nat.lt_trichotomy (prefix_len X.netmask) (prefix_len Y.netmask) with h | h | h
  · exact Or.inl ((containsP_iff X Y).mpr
      ⟨h, key X Y hXr.symm hYr.symm hXle hYle (by omega) heq1 heq2⟩)
  · refine Or.inr (Or.inr ?_)
    have hm : X.netmask = Y.netmask := by rw [← hXr, ← hYr, h]
    have haddr : X.addr = Y.addr := by rw [← heq1, ← heq2, hm]
    obtain ⟨xa, xm⟩ := X
    obtain ⟨ya, ym⟩ := Y
    simp only [Prefix.mk.injEq]
    exact ⟨haddr, hm⟩
  · exact Or.inr (Or.inl ((containsP_iff Y X).mpr
      ⟨h, key Y X hYr.symm hXr.symm hYle hXle (by omega) heq2 heq1⟩))

/-- C6: CONFIRMED.  For prefixes with legal netmasks, `A` contains `B` iff
`B`'s mask length is strictly greater than `A`'s and `B`'s address masked by
`A`'s netmask equals `A`'s network address; containment is irreflexive,
transitive and asymmetric, hence a strict partial order. -/
theorem contains_iff_and_strict_order (A B C : Prefix)
    (hA : A.netmask ∈ valid_masks) (hB : B.netmask ∈ valid_masks) :
    (A.containsP B = true ↔
      prefix_len A.netmask < prefix_len B.netmask ∧ A.netmask &&& B.addr = A.addr) ∧
    A.containsP A = false ∧
    (A.containsP B = true → B.containsP C = true → A.containsP C = true) ∧
    (A.containsP B = true → B.containsP A = false) := by
  refine ⟨containsP_iff A B, containsP_irrefl A, ?_, ?_⟩
  · intro h1 h2
    obtain ⟨hlt1, heq1⟩ := (containsP_iff A B).mp h1
    obtain ⟨hlt2, heq2⟩ := (containsP_iff B C).mp h2
    obtain ⟨hAr, hAle⟩ := valid_mask_facts A.netmask hA
    obtain ⟨hBr, hBle⟩ := valid_mask_facts B.netmask hB
    refine (containsP_iff A C).mpr ⟨by omega, ?_⟩
    have hmm : A.netmask &&& B.netmask = A.netmask := by
      calc A.netmask &&& B.netmask
          = plen2int (prefix_len A.netmask) &&& plen2int (prefix_len B.netmask) := by
            rw [hAr, hBr]
        _ = plen2int (prefix_len A.netmask) :=
            plen2int_land_le (prefix_len A.netmask) (by omega)
              (prefix_len B.netmask) (by omega) (by omega)
        _ = A.netmask := hAr
    calc A.netmask &&& C.addr
        = (A.netmask &&& B.netmask) &&& C.addr := by rw [hmm]
      _ = A.netmask &&& (B.netmask &&& C.addr) := Nat.land_assoc _ _ _
      _ = A.netmask &&& B.addr := by rw [heq2]
      _ = A.addr := heq1
  · intro h1
    obtain ⟨hlt1, _⟩ := (containsP_iff A B).mp h1
    unfold Prefix.containsP
    have : prefix_len A.netmask ≤ prefix_len B.netmask := by omega
    simp [this]

/-- Witness for C6 at A = 10.0.0.0/8, B = 10.0.0.0/16, C = 10.0.0.0/24. -/
theorem contains_iff_and_strict_order_witness :
    p10_8.netmask ∈ valid_masks ∧ p10_0_16.netmask ∈ valid_masks ∧
    (p10_8.containsP p10_0_16 = true → p10_0_16.containsP p10_0_0_24 = true →
      p10_8.containsP p10_0_0_24 = true) :=
  ⟨by decide, by decide,
   (contains_iff_and_strict_order p10_8 p10_0_16 p10_0_0_24 (by decide) (by decide)).2.2.1⟩

/-- C9 amended: REFUTED as stated, see `lt_not_address_only`; what holds is
that the relational less-than on prefixes applies the same nesting-aware
rules as the integer three-way comparison — `A < B` iff `__cmp__(A,B)` is
negative — with address comparison alone deciding only the non-nested case. -/
theorem lt_matches_cmp (A B : Prefix) : Prefix.lt A B = true ↔ Prefix.cmp A B = -1 := by
  unfold Prefix.lt Prefix.cmp
  split_ifs <;> simp_all

/-! Tree-level facts used to settle duplicate insertion. -/

/-- Every tree has at least one node. -/
theorem nodeCount_pos (t : PrefixNode) : 1 ≤ nodeCount t := by
  obtain ⟨p, cs⟩ := t
  simp [nodeCount]

/-- A member's node count is bounded by the list's. -/
theorem nodeCount_mem_le {c : PrefixNode} {cs : List PrefixNode} (h : c ∈ cs) :
    nodeCount c ≤ nodeCountL cs := by
  induction cs with
  | nil => cases h
  | cons d rest ih =>
    rcases List.mem_cons.mp h with rfl | h2
    · simp [nodeCountL]
    · have := ih h2
      simp only [nodeCountL]
      omega

/-- A subtree's prefix list is its root's prefix followed by its children's. -/
theorem nodePrefixes_eq (t : PrefixNode) :
    nodePrefixes t = t.pfx :: nodePrefixesL t.children := by
  obtain ⟨p, cs⟩ := t
  rfl

/-- Unpacking the conjuncts of the invariant checker at a node. -/
theorem invB_parts {t : PrefixNode} (h : invB t = true) :
    t.pfx.netmask ∈ valid_masks ∧
    (∀ q ∈ nodePrefixesL t.children, t.pfx.containsP q = true) ∧
    sibOK t.children = true ∧
    distinctB (t.pfx :: nodePrefixesL t.children) = true ∧
    invL t.children = true := by
  obtain ⟨p, cs⟩ := t
  simp only [invB, Bool.and_eq_true, List.all_eq_true] at h
  obtain ⟨⟨⟨⟨hv, hcont⟩, hsib⟩, hdist⟩, hinvL⟩ := h
  refine ⟨?_, hcont, hsib, hdist, hinvL⟩
  simpa using hv

/-- The invariant holds of every member of an invariant child list. -/
theorem invL_mem {cs : List PrefixNode} (h : invL cs = true) {c : PrefixNode}
    (hc : c ∈ cs) : invB c = true := by
  induction cs with
  | nil => cases hc
  | cons d rest ih =>
    simp only [invL, Bool.and_eq_true] at h
    rcases List.mem_cons.mp hc with rfl | h2
    · exact h.1
    · exact ih h.2 h2

/-- Splitting pairwise sibling disjointness around a distinguished child. -/
theorem sibOK_split {pre rest : List PrefixNode} {c0 : PrefixNode}
    (h : sibOK (pre ++ c0 :: rest) = true) :
    (∀ c ∈ pre, pairOK c c0 = true) ∧ (∀ c ∈ rest, pairOK c0 c = true) := by
  induction pre with
  | nil =>
    simp only [List.nil_append, sibOK, Bool.and_eq_true, List.all_eq_true] at h
    exact ⟨fun c hc => absurd hc (List.not_mem_nil c), h.1⟩
  | cons d pre' ih =>
    simp only [List.cons_append, sibOK, Bool.and_eq_true, List.all_eq_true] at h
    obtain ⟨hall, hrest⟩ := h
    obtain ⟨h1, h2⟩ := ih hrest
    refine ⟨?_, h2⟩
    intro c hc
    rcases List.mem_cons.mp hc with rfl | hc2
    · exact hall c0 (by simp)
    · exact h1 c hc2

/-- A prefix occurring among a child list's subtrees occurs in one of them. -/
theorem mem_nodePrefixesL_split {p : Prefix} {cs : List PrefixNode}
    (h : p ∈ nodePrefixesL cs) :
    ∃ pre c0 rest, cs = pre ++ c0 :: rest ∧ p ∈ nodePrefixes c0 := by
  induction cs with
  | nil => simp [nodePrefixesL] at h
  | cons c rest ih =>
    simp only [nodePrefixesL, List.mem_append] at h
    rcases h with h | h
    · exact ⟨[], c, rest, by simp, h⟩
    · obtain ⟨pre, c0, rest', heq, hp⟩ := ih h
      exact ⟨c :: pre, c0, rest', by simp [heq], hp⟩

/-- Every node of an invariant tree list carries a legal netmask. -/
theorem inv_all_valid : ∀ n cs, nodeCountL cs ≤ n → invL cs = true →
    ∀ q ∈ nodePrefixesL cs, q.netmask ∈ valid_masks := by
  intro n
  induction n with
  | zero =>
    intro cs hle _ q hq
    cases cs with
    | nil => simp [nodePrefixesL] at hq
    | cons c rest =>
      exfalso
      have := nodeCount_pos c
      simp only [nodeCountL] at hle
      omega
  | succ n ih =>
    intro cs hle hinv q hq
    cases cs with
    | nil => simp [nodePrefixesL] at hq
    | cons c rest =>
      simp only [invL, Bool.and_eq_true] at hinv
      obtain ⟨hc, hrest⟩ := hinv
      simp only [nodePrefixesL, List.mem_append] at hq
      simp only [nodeCountL] at hle
      rcases hq with hq | hq
      · obtain ⟨cp, ccs⟩ := c
        obtain ⟨hvalid, -, -, -, hinvL⟩ := invB_parts hc
        simp only [nodePrefixes, List.mem_cons] at hq
        rcases hq with rfl | hq
        · exact hvalid
        · refine ih ccs ?_ hinvL q hq
          simp only [nodeCount] at hle
          omega
      · refine ih rest ?_ hrest q hq
        have := nodeCount_pos c
        omega

/-- `add` returns False immediately when the receiver does not contain the
new prefix (source line 798); no state is touched. -/
theorem addF_rejected {fuel : Nat} (hf : 0 < fuel) {c nc : PrefixNode}
    (hc : c.pfx.containsP nc.pfx = false) : addF fuel c nc = some .rejected := by
  cases fuel with
  | zero => omega
  | succ f =>
    by_cases h32 : (prefix_len c.pfx.netmask == 32) = true
    · simp [addF, h32]
    · simp [addF, h32, hc]

/-- If every tried child rejects, the pospars loop reports `rej`. -/
theorem posparsGo_rej {addf : PrefixNode → PrefixNode → Option AddOut}
    {cs : List PrefixNode} {nc : PrefixNode}
    (h : ∀ c ∈ cs, prefix_len c.pfx.netmask < 32 → addf c nc = some AddOut.rejected) :
    posparsGo addf cs nc = some .rej := by
  induction cs with
  | nil => rfl
  | cons c rest ih =>
    have hrest : posparsGo addf rest nc = some .rej :=
      ih fun d hd => h d (List.mem_cons_of_mem c hd)
    by_cases h32 : prefix_len c.pfx.netmask < 32
    · have hc := h c (List.mem_cons_self c rest) h32
      simp [posparsGo, h32, hc, hrest]
    · simp [posparsGo, h32, hrest]

/-- If the children before `c0` reject and `c0` raises a duplicate, the
pospars loop propagates the raise with every state unchanged. -/
theorem posparsGo_dup {addf : PrefixNode → PrefixNode → Option AddOut}
    {pre rest : List PrefixNode} {c0 nc : PrefixNode} {p : Prefix}
    (hpre : ∀ c ∈ pre, prefix_len c.pfx.netmask < 32 → addf c nc = some AddOut.rejected)
    (h32 : prefix_len c0.pfx.netmask < 32)
    (hc0 : addf c0 nc = some (AddOut.dup p c0 nc)) :
    posparsGo addf (pre ++ c0 :: rest) nc = some (.dup p (pre ++ c0 :: rest) nc) := by
  induction pre with
  | nil =>
    simp [posparsGo, h32, hc0]
  | cons d pre' ih =>
    have hrec := ih fun c hc h => hpre c (List.mem_cons_of_mem d hc) h
    by_cases hd32 : prefix_len d.pfx.netmask < 32
    · have hd := hpre d (List.mem_cons_self d pre') hd32
      simp [posparsGo, hd32, hd, hrec]
    · simp [posparsGo, hd32, hrec]

/-- The parenting check succeeds when some child carries the prefix. -/
theorem parenting_of_mem {cs : List PrefixNode} {c : PrefixNode} (hc : c ∈ cs) :
    parenting cs c.pfx = true := by
  simp only [parenting, List.any_eq_true]
  exact ⟨c, hc, by simp⟩

/-- Inserting a prefix that already occurs strictly below an invariant node
raises `DuplicatePrefixError` carrying that prefix, with both the tree and
the new node unchanged. -/
theorem addF_dup_of_mem_below : ∀ fuel, ∀ t p, nodeCount t < fuel → invB t = true →
    p ∈ nodePrefixesL t.children →
    addF fuel t ⟨p, []⟩ = some (.dup p t ⟨p, []⟩) := by
  intro fuel
  induction fuel with
  | zero =>
    intro t p h
    omega
  | succ fuel ih =>
    intro t p hcount hinv hmem
    obtain ⟨tp, cs⟩ := t
    simp only [PrefixNode.children] at hmem
    obtain ⟨hvalid, hcont, hsib, hdist, hinvL⟩ := invB_parts hinv
    simp only [PrefixNode.pfx, PrefixNode.children] at hvalid hcont hsib hdist hinvL
    have hc : tp.containsP p = true := hcont p hmem
    have hvalid_all := inv_all_valid (nodeCountL cs) cs (Nat.le_refl _) hinvL
    have hpvalid : p.netmask ∈ valid_masks := hvalid_all p hmem
    have hple : prefix_len p.netmask ≤ 32 := (valid_mask_facts p.netmask hpvalid).2
    obtain ⟨hlt, -⟩ := (containsP_iff tp p).mp hc
    have h32 : (prefix_len tp.netmask == 32) = false := by
      simp only [beq_eq_false_iff_ne, ne_eq]
      omega
    have hnc : (!(tp.containsP p)) = false := by simp [hc]
    obtain ⟨pre, c0, rest, rfl, hp0⟩ := mem_nodePrefixesL_split hmem
    obtain ⟨hsib_pre, hsib_rest⟩ := sibOK_split hsib
    have hinvc0 : invB c0 = true := invL_mem hinvL (by simp)
    have hcnt : nodeCount c0 < fuel := by
      have h1 : nodeCount c0 ≤ nodeCountL (pre ++ c0 :: rest) :=
        nodeCount_mem_le (by simp)
      have h2 : nodeCount ⟨tp, pre ++ c0 :: rest⟩ = 1 + nodeCountL (pre ++ c0 :: rest) := rfl
      omega
    have hfuelpos : 0 < fuel := by
      have := nodeCount_pos c0
      omega
    obtain ⟨c0p, c0cs⟩ := c0
    rw [nodePrefixes_eq] at hp0
    simp only [PrefixNode.pfx, PrefixNode.children] at hp0
    rcases List.mem_cons.mp hp0 with heq | hdeep
    · -- the duplicate is the direct child itself
      subst heq
      have hrej : ∀ c ∈ pre ++ (⟨p, c0cs⟩ : PrefixNode) :: rest,
          prefix_len c.pfx.netmask < 32 →
          addF fuel c ⟨p, []⟩ = some AddOut.rejected := by
        intro c hcmem _
        apply addF_rejected hfuelpos
        show c.pfx.containsP p = false
        rcases List.mem_append.mp hcmem with hcpre | hcc
        · have hpair := hsib_pre c hcpre
          simp only [pairOK, PrefixNode.pfx, Bool.and_eq_true, Bool.not_eq_true'] at hpair
          exact hpair.1.1
        · rcases List.mem_cons.mp hcc with rfl | hcrest
          · exact containsP_irrefl p
          · have hpair := hsib_rest c hcrest
            simp only [pairOK, PrefixNode.pfx, Bool.and_eq_true, Bool.not_eq_true'] at hpair
            exact hpair.1.2
      have hloop := posparsGo_rej hrej
      have hpar : parenting (pre ++ (⟨p, c0cs⟩ : PrefixNode) :: rest) p = true :=
        @parenting_of_mem (pre ++ (⟨p, c0cs⟩ : PrefixNode) :: rest) ⟨p, c0cs⟩ (by simp)
      simp [addF, PrefixNode.pfx, PrefixNode.children, h32, hnc, hloop, hpar]
    · -- the duplicate lies strictly inside the child
      have hvalidc0 : c0p.netmask ∈ valid_masks := (invB_parts hinvc0).1
      have hcontc0 : ∀ q ∈ nodePrefixesL c0cs, c0p.containsP q = true :=
        (invB_parts hinvc0).2.1
      have hcc0 : c0p.containsP p = true := hcontc0 p hdeep
      obtain ⟨hltc0, -⟩ := (containsP_iff c0p p).mp hcc0
      have h32c0 : prefix_len c0p.netmask < 32 := by omega
      have hc0add : addF fuel ⟨c0p, c0cs⟩ ⟨p, []⟩ =
          some (.dup p ⟨c0p, c0cs⟩ ⟨p, []⟩) :=
        ih ⟨c0p, c0cs⟩ p hcnt hinvc0 hdeep
      have hrej : ∀ c ∈ pre, prefix_len c.pfx.netmask < 32 →
          addF fuel c ⟨p, []⟩ = some AddOut.rejected := by
        intro c hcpre _
        apply addF_rejected hfuelpos
        show c.pfx.containsP p = false
        cases hcc : c.pfx.containsP p with
        | false => rfl
        | true =>
          exfalso
          have hcvalid : c.pfx.netmask ∈ valid_masks :=
            (invB_parts (invL_mem hinvL (List.mem_append_left _ hcpre))).1
          have hpairs := hsib_pre c hcpre
          simp only [pairOK, Bool.and_eq_true, Bool.not_eq_true'] at hpairs
          have hp1 : c.pfx.containsP c0p = false := hpairs.1.1
          have hp2 : c0p.containsP c.pfx = false := hpairs.1.2
          rcases containers_nested c.pfx c0p p hcvalid hvalidc0 hcc hcc0 with hn | hn | hn
          · rw [hn] at hp1
            exact absurd hp1 (by decide)
          · rw [hn] at hp2
            exact absurd hp2 (by decide)
          · have hp3 : (c.pfx == c0p) = false := hpairs.2
            rw [hn] at hp3
            simp at hp3
      have h32c0' : prefix_len (PrefixNode.pfx ⟨c0p, c0cs⟩).netmask < 32 := h32c0
      have hloop : posparsGo (addF fuel) (pre ++ (⟨c0p, c0cs⟩ : PrefixNode) :: rest) ⟨p, []⟩ =
          some (.dup p (pre ++ (⟨c0p, c0cs⟩ : PrefixNode) :: rest) ⟨p, []⟩) :=
        posparsGo_dup hrej h32c0' hc0add
      simp [addF, PrefixNode.pfx, PrefixNode.children, h32, hnc, hloop]

/-- C5 amended: REFUTED as stated (see `insert_root_duplicate_rejected` for
the root case); what holds is: for every tree satisfying the documented
invariant and every prefix already carried by a node strictly below the call
target, insertion raises DuplicatePrefixError carrying that prefix and
leaves the tree (and hence its node count and structure) unchanged — while
inserting a prefix equal to the root's own prefix is silently rejected
(returns False), also leaving the tree unchanged. -/
theorem insert_duplicate_below_root (t : PrefixNode) (p : Prefix)
    (hinv : invB t = true) :
    (p ∈ nodePrefixesL t.children →
      t.add ⟨p, []⟩ = some (.dup p t ⟨p, []⟩)) ∧
    (p = t.pfx → t.add ⟨p, []⟩ = some .rejected) := by
  constructor
  · intro hmem
    unfold PrefixNode.add
    apply addF_dup_of_mem_below
    · omega
    · exact hinv
    · exact hmem
  · intro hp
    unfold PrefixNode.add
    apply addF_rejected
    · omega
    · show t.pfx.containsP p = false
      rw [hp]
      exact containsP_irrefl t.pfx

/-- Witness for C5 at a two-node tree with a duplicate of the child. -/
theorem insert_duplicate_below_root_witness :
    invB ⟨pAll, [⟨p10_8, []⟩]⟩ = true ∧
    PrefixNode.add ⟨pAll, [⟨p10_8, []⟩]⟩ ⟨p10_8, []⟩ =
      some (.dup p10_8 ⟨pAll, [⟨p10_8, []⟩]⟩ ⟨p10_8, []⟩) :=
  ⟨by decide,
   (insert_duplicate_below_root ⟨pAll, [⟨p10_8, []⟩]⟩ p10_8 (by decide)).1 (by decide)⟩

/-! Facts about subnet enumeration. -/

/-- `cur += 1` on an aligned prefix of mask length `pm` advances by the
block size (the host-bits check never fires on aligned addresses) and
overflows exactly when the next address leaves the 32-bit space. -/
theorem addInt_one (pm : Nat) (hpm : pm ≤ 32) (x : Nat)
    (hx0 : x % 2 ^ (32 - pm) = 0) :
    Prefix.addInt ⟨x, plen2int pm⟩ 1 =
      if 2 ^ 32 - 1 < x + 2 ^ (32 - pm) then .error .valueError
      else .ok ⟨x + 2 ^ (32 - pm), plen2int pm⟩ := by
  unfold Prefix.addInt
  have hns : netsize (plen2int pm) = 2 ^ (32 - pm) := by
    unfold netsize
    rw [prefix_len_plen2int pm (by omega)]
  simp only [hns, Nat.one_mul]
  by_cases hov : 2 ^ 32 - 1 < x + 2 ^ (32 - pm)
  · have hov' : (4294967295 : Nat) < x + 2 ^ (32 - pm) := by omega
    simp [hov, hov']
  · have hov' : ¬ ((4294967295 : Nat) < x + 2 ^ (32 - pm)) := by omega
    have hmod : (x + 2 ^ (32 - pm)) &&& complement32 (plen2int pm) = 0 := by
      rw [complement32_plen2int pm (by omega), Nat.and_pow_two_sub_one_eq_mod]
      rw [show x + 2 ^ (32 - pm) = x + 1 * 2 ^ (32 - pm) from by ring,
        Nat.add_mul_mod_self_right]
      exact hx0
    simp [hov, hov', hmod]

/-- The loop of `subnet` run from the `i`-th tile of a `ps`-block with
target mask length `pm`: it yields the remaining `2^(pm-ps) - i` tiles in
increasing address order, and the final `cur += 1` raises exactly when the
block ends at address `2^32 - 1` (that is, `a + 1 = 2^ps`). -/
theorem subnetGo_spec (ps pm a : Nat) (hps : ps ≤ 32) (hpm : pm ≤ 32) (hle : ps ≤ pm)
    (ha : a < 2 ^ ps) :
    ∀ fuel i, 2 ^ (pm - ps) - i < fuel → i ≤ 2 ^ (pm - ps) →
      a * 2 ^ (32 - ps) + i * 2 ^ (32 - pm) < 2 ^ 32 →
      subnetGo fuel ⟨a * 2 ^ (32 - ps), plen2int ps⟩
          ⟨a * 2 ^ (32 - ps) + i * 2 ^ (32 - pm), plen2int pm⟩ =
        some (((List.range (2 ^ (pm - ps) - i)).map
            fun j => ⟨a * 2 ^ (32 - ps) + (i + j) * 2 ^ (32 - pm), plen2int pm⟩),
          decide (a + 1 = 2 ^ ps) && decide (i < 2 ^ (pm - ps))) := by
  have hKS : 2 ^ (32 - ps) = 2 ^ (pm - ps) * 2 ^ (32 - pm) := by
    rw [← Nat.pow_add]
    congr 1
    omega
  have hSpos : 0 < 2 ^ (32 - pm) := Nat.two_pow_pos _
  have hKpos : 0 < 2 ^ (32 - ps) := Nat.two_pow_pos _
  have hNpos : 0 < 2 ^ (pm - ps) := Nat.two_pow_pos _
  have h232 : 2 ^ ps * 2 ^ (32 - ps) = 2 ^ 32 := by
    rw [← Nat.pow_add]
    congr 1
    omega
  have h5 : (2 ^ ps - 1) * 2 ^ (32 - ps) + 2 ^ (32 - ps) = 2 ^ 32 := by
    have hps1 : 2 ^ ps - 1 + 1 = 2 ^ ps := by
      have := Nat.two_pow_pos ps
      omega
    calc (2 ^ ps - 1) * 2 ^ (32 - ps) + 2 ^ (32 - ps)
        = (2 ^ ps - 1 + 1) * 2 ^ (32 - ps) := by ring
      _ = 2 ^ ps * 2 ^ (32 - ps) := by rw [hps1]
      _ = 2 ^ 32 := h232
  intro fuel
  induction fuel with
  | zero =>
    intro i h
    omega
  | succ fuel ih =>
    intro i hfuel hiN hbound
    by_cases hiltN : i < 2 ^ (pm - ps)
    · -- the loop condition holds: the current tile is still inside the block
      have hcond : (Prefix.containsP ⟨a * 2 ^ (32 - ps), plen2int ps⟩
            ⟨a * 2 ^ (32 - ps) + i * 2 ^ (32 - pm), plen2int pm⟩ ||
          ((⟨a * 2 ^ (32 - ps) + i * 2 ^ (32 - pm), plen2int pm⟩ : Prefix) ==
            ⟨a * 2 ^ (32 - ps), plen2int ps⟩)) = true := by
        rcases Nat.lt_or_ge ps pm with hpslt | hpsge
        · have hct : Prefix.containsP ⟨a * 2 ^ (32 - ps), plen2int ps⟩
              ⟨a * 2 ^ (32 - ps) + i * 2 ^ (32 - pm), plen2int pm⟩ = true := by
            apply (containsP_iff _ _).mpr
            refine ⟨?_, ?_⟩
            · show prefix_len (plen2int ps) < prefix_len (plen2int pm)
              rw [prefix_len_plen2int ps (by omega), prefix_len_plen2int pm (by omega)]
              exact hpslt
            · show plen2int ps &&& (a * 2 ^ (32 - ps) + i * 2 ^ (32 - pm)) = a * 2 ^ (32 - ps)
              rw [land_plen2int _ ps hbound hps]
              have hi2 : i * 2 ^ (32 - pm) < 2 ^ (32 - ps) := by
                rw [hKS]
                exact (Nat.mul_lt_mul_right hSpos).mpr hiltN
              rw [Nat.mul_comm a (2 ^ (32 - ps)), Nat.mul_add_div hKpos,
                Nat.div_eq_of_lt hi2]
              ring
          simp [hct]
        · have hpe : pm = ps := by omega
          subst hpe
          have hi0 : i = 0 := by
            have h1 : pm - pm = 0 := by omega
            rw [h1] at hiltN
            simp at hiltN
            exact hiltN
          subst hi0
          simp
      -- the current address is aligned to the target block size
      have hx0 : (a * 2 ^ (32 - ps) + i * 2 ^ (32 - pm)) % 2 ^ (32 - pm) = 0 := by
        have hdvd : 2 ^ (32 - pm) ∣ a * 2 ^ (32 - ps) := by
          rw [hKS]
          exact ⟨a * 2 ^ (pm - ps), by ring⟩
        rw [Nat.add_mul_mod_self_right]
        omega
      have haddInt := addInt_one pm hpm _ hx0
      have h3 : (i + 1) * 2 ^ (32 - pm) = i * 2 ^ (32 - pm) + 2 ^ (32 - pm) := by ring
      have h1up : (i + 1) * 2 ^ (32 - pm) ≤ 2 ^ (32 - ps) := by
        rw [hKS]
        exact Nat.mul_le_mul_right _ hiltN
      have h4b : a * 2 ^ (32 - ps) ≤ (2 ^ ps - 1) * 2 ^ (32 - ps) :=
        Nat.mul_le_mul_right _ (by omega)
      by_cases hov : 2 ^ 32 - 1 < a * 2 ^ (32 - ps) + i * 2 ^ (32 - pm) + 2 ^ (32 - pm)
      · -- the advance past this tile overflows: this is the last tile and
        -- the block ends at 2^32 - 1
        have hamax : a * 2 ^ (32 - ps) = (2 ^ ps - 1) * 2 ^ (32 - ps) := by omega
        have himax : (i + 1) * 2 ^ (32 - pm) = 2 ^ (32 - ps) := by omega
        have ha1 : a + 1 = 2 ^ ps := by
          have hacancel : a = 2 ^ ps - 1 :=
            Nat.eq_of_mul_eq_mul_right hKpos hamax
          have := Nat.two_pow_pos ps
          omega
        have hi1 : i + 1 = 2 ^ (pm - ps) := by
          apply Nat.eq_of_mul_eq_mul_right hSpos
          rw [himax, hKS]
        have hNi : 2 ^ (pm - ps) - i = 1 := by omega
        have hr1 : List.range 1 = [0] := rfl
        simp only [subnetGo, hcond, if_true]
        rw [haddInt, if_pos hov, hNi]
        simp [ha1, hiltN, hr1]
      · -- no overflow: advance to the next tile and use the induction
        -- hypothesis
        have hnext : a * 2 ^ (32 - ps) + (i + 1) * 2 ^ (32 - pm) < 2 ^ 32 := by omega
        have hrec := ih (i + 1) (by omega) (by omega) hnext
        have hform : a * 2 ^ (32 - ps) + i * 2 ^ (32 - pm) + 2 ^ (32 - pm) =
            a * 2 ^ (32 - ps) + (i + 1) * 2 ^ (32 - pm) := by ring
        have hflag : (decide (a + 1 = 2 ^ ps) && decide (i + 1 < 2 ^ (pm - ps))) =
            (decide (a + 1 = 2 ^ ps) && decide (i < 2 ^ (pm - ps))) := by
          by_cases hA : a + 1 = 2 ^ ps
          · have hi1lt : i + 1 < 2 ^ (pm - ps) := by
              rcases Nat.lt_or_ge (i + 1) (2 ^ (pm - ps)) with h | h
              · exact h
              · exfalso
                have hieq : i + 1 = 2 ^ (pm - ps) := by omega
                have : (i + 1) * 2 ^ (32 - pm) = 2 ^ (32 - ps) := by
                  rw [hieq, hKS]
                have hA2 : a * 2 ^ (32 - ps) = (2 ^ ps - 1) * 2 ^ (32 - ps) := by
                  have := Nat.two_pow_pos ps
                  have ha' : a = 2 ^ ps - 1 := by omega
                  rw [ha']
                omega
            simp [hA, hi1lt, hiltN]
          · simp [hA]
        have hNsucc : 2 ^ (pm - ps) - i = (2 ^ (pm - ps) - (i + 1)) + 1 := by omega
        have hfun : ((fun j => (⟨a * 2 ^ (32 - ps) + (i + j) * 2 ^ (32 - pm),
              plen2int pm⟩ : Prefix)) ∘ Nat.succ) =
            fun j => (⟨a * 2 ^ (32 - ps) + (i + 1 + j) * 2 ^ (32 - pm),
              plen2int pm⟩ : Prefix) := by
          funext j
          simp only [Function.comp]
          have : i + Nat.succ j = i + 1 + j := by omega
          rw [this]
        simp only [subnetGo, hcond, if_true]
        rw [haddInt, if_neg hov]
        simp only [hform, hrec]
        refine congrArg some ?_
        simp only [Prod.mk.injEq]
        constructor
        · rw [hNsucc, List.range_succ_eq_map, List.map_cons, List.map_map, hfun]
          simp
        · exact hflag
    · -- the loop condition fails: every tile has been yielded
      have hiN' : i = 2 ^ (pm - ps) := by omega
      subst hiN'
      have hcN : a * 2 ^ (32 - ps) + 2 ^ (pm - ps) * 2 ^ (32 - pm) =
          (a + 1) * 2 ^ (32 - ps) := by
        rw [hKS]
        ring
      have hcontf : Prefix.containsP ⟨a * 2 ^ (32 - ps), plen2int ps⟩
          ⟨a * 2 ^ (32 - ps) + 2 ^ (pm - ps) * 2 ^ (32 - pm), plen2int pm⟩ = false := by
        cases hcb : Prefix.containsP ⟨a * 2 ^ (32 - ps), plen2int ps⟩
            ⟨a * 2 ^ (32 - ps) + 2 ^ (pm - ps) * 2 ^ (32 - pm), plen2int pm⟩ with
        | false => rfl
        | true =>
          exfalso
          obtain ⟨-, h2⟩ := (containsP_iff _ _).mp hcb
          rw [show ((⟨a * 2 ^ (32 - ps) + 2 ^ (pm - ps) * 2 ^ (32 - pm), plen2int pm⟩ :
              Prefix)).addr = (a + 1) * 2 ^ (32 - ps) from hcN] at h2
          rw [land_plen2int _ ps (by omega) hps, Nat.mul_div_cancel _ hKpos] at h2
          have : a + 1 = a := Nat.eq_of_mul_eq_mul_right hKpos h2
          omega
      have heqf : ((⟨a * 2 ^ (32 - ps) + 2 ^ (pm - ps) * 2 ^ (32 - pm), plen2int pm⟩ :
            Prefix) == ⟨a * 2 ^ (32 - ps), plen2int ps⟩) = false := by
        apply beq_eq_false_iff_ne.mpr
        intro heqp
        have := congrArg Prefix.addr heqp
        simp only at this
        omega
      simp only [subnetGo, hcontf, heqf, Bool.or_self, Bool.false_eq_true, if_false]
      simp

/-- `subnet` on an aligned `ps`-block with a target mask length `pm ≥ ps`
yields exactly the `2^(pm-ps)` tiles of the block in increasing address
order, and its generator raises `ValueError` after the last tile exactly
when the block ends at address `2^32 - 1`. -/
theorem subnet_ok (ps pm a : Nat) (hps : ps ≤ 32) (hpm : pm ≤ 32) (hle : ps ≤ pm)
    (ha : a < 2 ^ ps) :
    Prefix.subnet ⟨a * 2 ^ (32 - ps), plen2int ps⟩ (plen2int pm) =
      .ok ((List.range (2 ^ (pm - ps))).map
          (fun j => ⟨a * 2 ^ (32 - ps) + j * 2 ^ (32 - pm), plen2int pm⟩),
        decide (a + 1 = 2 ^ ps)) := by
  have hKS : 2 ^ (32 - ps) = 2 ^ (pm - ps) * 2 ^ (32 - pm) := by
    rw [← Nat.pow_add]
    congr 1
    omega
  have h232 : 2 ^ ps * 2 ^ (32 - ps) = 2 ^ 32 := by
    rw [← Nat.pow_add]
    congr 1
    omega
  have hbase : a * 2 ^ (32 - ps) + 0 * 2 ^ (32 - pm) < 2 ^ 32 := by
    have h1 : (a + 1) * 2 ^ (32 - ps) ≤ 2 ^ ps * 2 ^ (32 - ps) :=
      Nat.mul_le_mul_right _ (by omega)
    have h2 : (a + 1) * 2 ^ (32 - ps) = a * 2 ^ (32 - ps) + 2 ^ (32 - ps) := by ring
    have h3 := Nat.two_pow_pos (32 - ps)
    omega
  have hrun := subnetGo_spec ps pm a hps hpm hle ha 4294967297 0
    (by
      have h1 : 2 ^ (pm - ps) ≤ 2 ^ 32 := Nat.pow_le_pow_right (by norm_num) (by omega)
      have h2 : (2 : Nat) ^ 32 = 4294967296 := by norm_num
      omega)
    (Nat.zero_le _) hbase
  unfold Prefix.subnet
  rw [prefix_len_plen2int pm (by omega), prefix_len_plen2int ps (by omega)]
  have hg : ¬ (pm < ps) := by omega
  rw [if_neg hg]
  have hhost : ((a * 2 ^ (32 - ps) &&& complement32 (plen2int pm)) != 0) = false := by
    have hdvd : 2 ^ (32 - pm) ∣ a * 2 ^ (32 - ps) := by
      rw [hKS]
      exact ⟨a * 2 ^ (pm - ps), by ring⟩
    rw [complement32_plen2int pm (by omega), Nat.and_pow_two_sub_one_eq_mod]
    simp [Nat.mod_eq_zero_of_dvd hdvd]
  rw [hhost]
  simp only [Bool.false_eq_true, if_false]
  rw [show (⟨a * 2 ^ (32 - ps), plen2int pm⟩ : Prefix) =
      ⟨a * 2 ^ (32 - ps) + 0 * 2 ^ (32 - pm), plen2int pm⟩ from by simp]
  rw [hrun]
  have hN0 : 2 ^ (pm - ps) - 0 = 2 ^ (pm - ps) := Nat.sub_zero _
  have hNpos : (0 : Nat) < 2 ^ (pm - ps) := Nat.two_pow_pos _
  simp only [hN0, hNpos, decide_eq_true_eq, Nat.zero_add, Bool.and_true]
  simp

/-- C7: CONFIRMED.  For an aligned prefix of mask length `ps` and a target
netmask of length `pm ≥ ps`, `subnet` yields exactly the `2^(pm-ps)`
prefixes of mask length `pm` that tile the block, in strictly increasing
address order (the list is the range map, whose addresses increase by the
tile size); requesting a less specific mask (`pm < ps`) raises `ValueError`.
The boolean records whether the exhausted generator then raises (see C10);
for blocks not ending at `2^32 - 1` it is false and iteration ends
normally, as in the witness `subnet(10.0.0.0/24, /26)`. -/
theorem subnet_tiles_block (a ps pm : Nat) (hps : ps ≤ 32) (hpm : pm ≤ 32)
    (ha : a < 2 ^ ps) :
    (ps ≤ pm → Prefix.subnet ⟨a * 2 ^ (32 - ps), plen2int ps⟩ (plen2int pm) =
        .ok ((List.range (2 ^ (pm - ps))).map
            (fun j => ⟨a * 2 ^ (32 - ps) + j * 2 ^ (32 - pm), plen2int pm⟩),
          decide (a + 1 = 2 ^ ps))) ∧
    (pm < ps → Prefix.subnet ⟨a * 2 ^ (32 - ps), plen2int ps⟩ (plen2int pm) =
        .error .valueError) := by
  constructor
  · intro hle
    exact subnet_ok ps pm a hps hpm hle ha
  · intro hg
    unfold Prefix.subnet
    rw [prefix_len_plen2int pm (by omega), prefix_len_plen2int ps (by omega)]
    rw [if_pos hg]

/-- Witness for C7: `subnet(10.0.0.0/24, /26)` yields exactly the four /26
tiles in increasing order and terminates normally. -/
theorem subnet_tiles_block_witness :
    (655360 : Nat) < 2 ^ 24 ∧
    Prefix.subnet ⟨167772160, plen2int 24⟩ (plen2int 26) =
      .ok ([⟨167772160, plen2int 26⟩, ⟨167772224, plen2int 26⟩,
            ⟨167772288, plen2int 26⟩, ⟨167772352, plen2int 26⟩], false) := by
  refine ⟨by decide, ?_⟩
  have h := (subnet_tiles_block 655360 24 26 (by decide) (by decide) (by decide)).1
    (by decide)
  exact Eq.trans (Eq.trans (by rfl) h) (by rfl)

/-- C10: CONFIRMED.  For every prefix whose block ends at address
255.255.255.255 (address `(2^ps - 1) * 2^(32-ps)`, mask length `ps`) and
every strictly more specific target mask length `pm`, the subnet generator
yields all the tiles and then raises the out-of-range `ValueError` (the
final boolean is true) instead of terminating normally: advancing past the
last tile overflows the 32-bit address bound. -/
theorem subnet_overflow_at_end (ps pm : Nat) (hlt : ps < pm) (hpm : pm ≤ 32) :
    Prefix.subnet ⟨(2 ^ ps - 1) * 2 ^ (32 - ps), plen2int ps⟩ (plen2int pm) =
      .ok ((List.range (2 ^ (pm - ps))).map
          (fun j => ⟨(2 ^ ps - 1) * 2 ^ (32 - ps) + j * 2 ^ (32 - pm), plen2int pm⟩),
        true) := by
  have hpos := Nat.two_pow_pos ps
  have h := subnet_ok ps pm (2 ^ ps - 1) (by omega) hpm (by omega) (by omega)
  rw [h]
  have : (2 ^ ps - 1 + 1 = 2 ^ ps) := by omega
  simp [this]

/-- Witness for C10: `subnet(255.255.255.0/24, /25)` yields the two /25
tiles and then raises. -/
theorem subnet_overflow_at_end_witness :
    (24 : Nat) < 25 ∧
    Prefix.subnet ⟨4294967040, plen2int 24⟩ (plen2int 25) =
      .ok ([⟨4294967040, plen2int 25⟩, ⟨4294967168, plen2int 25⟩], true) := by
  refine ⟨by decide, ?_⟩
  have h := subnet_overflow_at_end 24 25 (by decide) (by decide)
  exact Eq.trans (Eq.trans (by rfl) h) (by rfl)

end Ipcidrtree
